import Mathlib

/-!
Verification of the LLMbench annotation & diff engine specification against a
shallow Lean embedding of the TypeScript sources.

Embedded components:
* word-level diff (src/lib/diff/word-diff.ts: computeWordDiff; the npm diff
  package it calls is modelled from the spec);
* per-panel annotation store (src/hooks/useAnnotations.ts);
* saved-comparison loading (src/app/page.tsx handleLoad, outputToPanelResult);
* synchronized diff scrolling (src/app/page.tsx handleScrollA/handleScrollB);
* export layout (src/lib/export/comparison-export.ts: exportAsJSON,
  renderPlainColumn, renderDiffColumn).

Strings are modelled by Lean String (a wrapper around List Char), JS numbers
that hold integral DOM quantities by Int/Nat, and geometric/numeric values by
exact rationals.
-/

namespace LLMbench

/-- Model of the character class the regex \s matches on the texts involved
(ASCII whitespace). -/
def isWs (c : Char) : Bool := c = ' ' || c = '\t' || c = '\n' || c = '\r'

/-- Group a character list into maximal runs of whitespace / non-whitespace
characters, in order.  This is the word/whitespace tokenization unit of the
diff engine. -/
def charRuns : List Char → List (List Char)
  | [] => []
  | c :: cs =>
    match charRuns cs with
    | [] => [[c]]
    | r :: rs =>
      match r with
      | [] => [c] :: rs
      | d :: _ => if isWs c = isWs d then (c :: r) :: rs else [c] :: r :: rs

/-- Tokenize a string into maximal word / whitespace tokens. -/
def tokenize (s : String) : List String := (charRuns s.data).map String.mk

/-- Model of JS Array.prototype.join applied with the empty separator. -/
def joinStr : List String → String
  | [] => ""
  | s :: rest => s ++ joinStr rest

/-- Kind of a diff change / segment. -/
inductive ChangeKind where
  | common
  | added
  | removed
deriving DecidableEq, Repr

/-- One token-level step of an edit script. -/
inductive Step where
  | keep (t : String)
  | del (t : String)
  | ins (t : String)
deriving DecidableEq, Repr

def stepCost : Step → Nat
  | .keep _ => 0
  | .del _ => 1
  | .ins _ => 1

def scriptCost (l : List Step) : Nat := (l.map stepCost).sum

/-- Minimal (LCS-based) token edit script, computed with explicit fuel so the
definition is structurally recursive; fuel at least the summed lengths is
always sufficient. -/
def editScriptF (f : Nat) (xs ys : List String) : List Step :=
  match xs, ys with
  | [], ys => ys.map Step.ins
  | x :: xs, [] => (x :: xs).map Step.del
  | x :: xs, y :: ys =>
    match f with
    | 0 => []
    | f + 1 =>
      if x = y then Step.keep x :: editScriptF f xs ys
      else
        let dl := Step.del x :: editScriptF f xs (y :: ys)
        let ir := Step.ins y :: editScriptF f (x :: xs) ys
        if scriptCost dl ≤ scriptCost ir then dl else ir

def editScript (xs ys : List String) : List Step :=
  editScriptF (xs.length + ys.length) xs ys

def stepKind : Step → ChangeKind
  | .keep _ => .common
  | .del _ => .removed
  | .ins _ => .added

def stepTok : Step → String
  | .keep t => t
  | .del t => t
  | .ins t => t

/-- Coalesce adjacent script steps of the same kind into runs. -/
def coalesceGroups : List Step → List (ChangeKind × List String)
  | [] => []
  | s :: rest =>
    match coalesceGroups rest with
    | [] => [(stepKind s, [stepTok s])]
    | (k, ts) :: gs =>
      if stepKind s = k then (k, stepTok s :: ts) :: gs
      else (stepKind s, [stepTok s]) :: (k, ts) :: gs

/-- One change object of the word diff (a contiguous run of tokens that is
common, added, or removed). -/
structure Change where
  kind : ChangeKind
  value : String
deriving DecidableEq, Repr

/-- Modelled from the spec: the npm diff package function diffWords called by
computeWordDiff is not part of the repository sources.  Per spec section 4.1
it tokenizes both texts into word/whitespace units, computes a minimal
LCS-based edit script over the token sequences, and turns each contiguous run
of kept / inserted / deleted tokens into one change preserving original order
and exact whitespace content. -/
def diffWords (textA textB : String) : List Change :=
  (coalesceGroups (editScript (tokenize textA) (tokenize textB))).map
    (fun g => ⟨g.1, joinStr g.2⟩)

/-- A displayed diff segment (src/lib/diff/word-diff.ts DiffSegment). -/
structure DiffSegment where
  text : String
  type : ChangeKind
deriving DecidableEq, Repr

structure DiffResult where
  segmentsA : List DiffSegment
  segmentsB : List DiffSegment
deriving DecidableEq, Repr

/-- The loop body of computeWordDiff: added changes go to segmentsB only,
removed changes to segmentsA only, common changes to both, in change order. -/
def splitChanges : List Change → DiffResult
  | [] => ⟨[], []⟩
  | ch :: rest =>
    let r := splitChanges rest
    match ch.kind with
    | .added => ⟨r.segmentsA, ⟨ch.value, .added⟩ :: r.segmentsB⟩
    | .removed => ⟨⟨ch.value, .removed⟩ :: r.segmentsA, r.segmentsB⟩
    | .common =>
      ⟨⟨ch.value, .common⟩ :: r.segmentsA, ⟨ch.value, .common⟩ :: r.segmentsB⟩

/-- src/lib/diff/word-diff.ts computeWordDiff. -/
def computeWordDiff (textA textB : String) : DiffResult :=
  splitChanges (diffWords textA textB)

/-! ### Round-trip and pairing lemmas for the diff engine -/

theorem joinStr_append (a b : List String) :
    joinStr (a ++ b) = joinStr a ++ joinStr b := by
  induction a with
  | nil => simp [joinStr]
  | cons x xs ih => simp [joinStr, ih, String.append_assoc]

theorem charRuns_join (l : List Char) : (charRuns l).flatten = l := by
  induction l with
  | nil => rfl
  | cons c cs ih =>
    simp only [charRuns]
    cases h : charRuns cs with
    | nil =>
      rw [h] at ih
      simp at ih
      simp [List.flatten, ← ih]
    | cons r rs =>
      rw [h] at ih
      cases r with
      | nil =>
        simp [List.flatten] at ih ⊢
        exact ih
      | cons d t =>
        by_cases hws : isWs c = isWs d
        · simp [hws, List.flatten] at ih ⊢
          simpa using ih
        · simp [hws, List.flatten] at ih ⊢
          simpa using ih

theorem joinStr_map_mk (rs : List (List Char)) :
    joinStr (rs.map String.mk) = String.mk rs.flatten := by
  induction rs with
  | nil => rfl
  | cons r rs ih =>
    show String.mk r ++ joinStr (rs.map String.mk) = String.mk ((r :: rs).flatten)
    rw [ih]
    rfl

theorem tokenize_join (s : String) : joinStr (tokenize s) = s := by
  unfold tokenize
  rw [joinStr_map_mk, charRuns_join]

/-- Tokens kept on the A side of an edit script (kept and deleted tokens). -/
def sideAToks : List Step → List String
  | [] => []
  | s :: rest =>
    if stepKind s = .added then sideAToks rest else stepTok s :: sideAToks rest

/-- Tokens kept on the B side of an edit script (kept and inserted tokens). -/
def sideBToks : List Step → List String
  | [] => []
  | s :: rest =>
    if stepKind s = .removed then sideBToks rest else stepTok s :: sideBToks rest

theorem sideAToks_map_ins (l : List String) : sideAToks (l.map Step.ins) = [] := by
  induction l with
  | nil => rfl
  | cons x xs ih => simp [sideAToks, stepKind, ih]

theorem sideAToks_map_del (l : List String) : sideAToks (l.map Step.del) = l := by
  induction l with
  | nil => rfl
  | cons x xs ih => simp [sideAToks, stepKind, stepTok, ih]

theorem sideBToks_map_ins (l : List String) : sideBToks (l.map Step.ins) = l := by
  induction l with
  | nil => rfl
  | cons x xs ih => simp [sideBToks, stepKind, stepTok, ih]

theorem sideBToks_map_del (l : List String) : sideBToks (l.map Step.del) = [] := by
  induction l with
  | nil => rfl
  | cons x xs ih => simp [sideBToks, stepKind, ih]

theorem sideAToks_editScriptF (f : Nat) :
    ∀ xs ys : List String, xs.length + ys.length ≤ f →
      sideAToks (editScriptF f xs ys) = xs := by
  induction f with
  | zero =>
    intro xs ys h
    have hx : xs = [] := by
      cases xs with
      | nil => rfl
      | cons a as => simp at h
    subst hx
    simp [editScriptF, sideAToks_map_ins]
  | succ f ih =>
    intro xs ys h
    cases xs with
    | nil => simp [editScriptF, sideAToks_map_ins]
    | cons x xs =>
      cases ys with
      | nil =>
        show sideAToks ((x :: xs).map Step.del) = x :: xs
        exact sideAToks_map_del _
      | cons y ys =>
        simp only [editScriptF]
        by_cases hxy : x = y
        · have hle : xs.length + ys.length ≤ f := by
            simp [List.length] at h
            omega
          simp [hxy, sideAToks, stepKind, stepTok, ih xs ys hle]
        · have hle1 : xs.length + (y :: ys).length ≤ f := by
            simp [List.length] at h ⊢
            omega
          have hle2 : (x :: xs).length + ys.length ≤ f := by
            simp [List.length] at h ⊢
            omega
          simp only [hxy, if_false]
          by_cases hc :
              scriptCost (Step.del x :: editScriptF f xs (y :: ys)) ≤
                scriptCost (Step.ins y :: editScriptF f (x :: xs) ys)
          · simp [hc, sideAToks, stepKind, stepTok, ih xs (y :: ys) hle1]
          · simp [hc, sideAToks, stepKind, stepTok, ih (x :: xs) ys hle2]

theorem sideBToks_editScriptF (f : Nat) :
    ∀ xs ys : List String, xs.length + ys.length ≤ f →
      sideBToks (editScriptF f xs ys) = ys := by
  induction f with
  | zero =>
    intro xs ys h
    have hy : ys = [] := by
      cases ys with
      | nil => rfl
      | cons a as => simp at h
    subst hy
    cases xs with
    | nil => rfl
    | cons x xs =>
      show sideBToks ((x :: xs).map Step.del) = []
      exact sideBToks_map_del _
  | succ f ih =>
    intro xs ys h
    cases xs with
    | nil => simp [editScriptF, sideBToks_map_ins]
    | cons x xs =>
      cases ys with
      | nil =>
        show sideBToks ((x :: xs).map Step.del) = []
        exact sideBToks_map_del _
      | cons y ys =>
        simp only [editScriptF]
        by_cases hxy : x = y
        · subst hxy
          have hle : xs.length + ys.length ≤ f := by
            simp [List.length] at h
            omega
          simp [sideBToks, stepKind, stepTok, ih xs ys hle]
        · have hle1 : xs.length + (y :: ys).length ≤ f := by
            simp [List.length] at h ⊢
            omega
          have hle2 : (x :: xs).length + ys.length ≤ f := by
            simp [List.length] at h ⊢
            omega
          simp only [hxy, if_false]
          by_cases hc :
              scriptCost (Step.del x :: editScriptF f xs (y :: ys)) ≤
                scriptCost (Step.ins y :: editScriptF f (x :: xs) ys)
          · simp [hc, sideBToks, stepKind, stepTok, ih xs (y :: ys) hle1]
          · simp [hc, sideBToks, stepKind, stepTok, ih (x :: xs) ys hle2]

theorem sideAToks_editScript (xs ys : List String) :
    sideAToks (editScript xs ys) = xs :=
  sideAToks_editScriptF _ xs ys (le_refl _)

theorem sideBToks_editScript (xs ys : List String) :
    sideBToks (editScript xs ys) = ys :=
  sideBToks_editScriptF _ xs ys (le_refl _)

/-- Token lists contributed to the A side by a list of coalesced groups. -/
def groupsSideA : List (ChangeKind × List String) → List String
  | [] => []
  | (k, ts) :: gs =>
    if k = .added then groupsSideA gs else ts ++ groupsSideA gs

/-- Token lists contributed to the B side by a list of coalesced groups. -/
def groupsSideB : List (ChangeKind × List String) → List String
  | [] => []
  | (k, ts) :: gs =>
    if k = .removed then groupsSideB gs else ts ++ groupsSideB gs

theorem groupsSideA_coalesce (steps : List Step) :
    groupsSideA (coalesceGroups steps) = sideAToks steps := by
  induction steps with
  | nil => rfl
  | cons s rest ih =>
    simp only [coalesceGroups, sideAToks]
    cases h : coalesceGroups rest with
    | nil =>
      rw [h] at ih
      simp only [groupsSideA] at ih
      by_cases hk : stepKind s = .added
      · simp [groupsSideA, hk, ← ih]
      · simp [groupsSideA, hk, ← ih]
    | cons g gs =>
      obtain ⟨k, ts⟩ := g
      rw [h] at ih
      simp only [groupsSideA] at ih
      dsimp only
      by_cases hsk : stepKind s = k
      · rw [if_pos hsk]
        by_cases hk : k = .added
        · rw [if_pos hk] at ih
          have hs2 : stepKind s = .added := hsk.trans hk
          simp only [groupsSideA, hk, if_true, hs2, ih]
        · rw [if_neg hk] at ih
          have hs2 : ¬ stepKind s = .added := fun hh => hk (hsk.symm.trans hh)
          simp only [groupsSideA, hk, if_false, hs2, List.cons_append, ih]
      · rw [if_neg hsk]
        by_cases hk : stepKind s = .added
        · simp only [groupsSideA, hk, if_true, ih]
        · simp only [groupsSideA, hk, if_false, List.singleton_append, ih]

theorem groupsSideB_coalesce (steps : List Step) :
    groupsSideB (coalesceGroups steps) = sideBToks steps := by
  induction steps with
  | nil => rfl
  | cons s rest ih =>
    simp only [coalesceGroups, sideBToks]
    cases h : coalesceGroups rest with
    | nil =>
      rw [h] at ih
      simp only [groupsSideB] at ih
      by_cases hk : stepKind s = .removed
      · simp [groupsSideB, hk, ← ih]
      · simp [groupsSideB, hk, ← ih]
    | cons g gs =>
      obtain ⟨k, ts⟩ := g
      rw [h] at ih
      simp only [groupsSideB] at ih
      dsimp only
      by_cases hsk : stepKind s = k
      · rw [if_pos hsk]
        by_cases hk : k = .removed
        · rw [if_pos hk] at ih
          have hs2 : stepKind s = .removed := hsk.trans hk
          simp only [groupsSideB, hk, if_true, hs2, ih]
        · rw [if_neg hk] at ih
          have hs2 : ¬ stepKind s = .removed := fun hh => hk (hsk.symm.trans hh)
          simp only [groupsSideB, hk, if_false, hs2, List.cons_append, ih]
      · rw [if_neg hsk]
        by_cases hk : stepKind s = .removed
        · simp only [groupsSideB, hk, if_true, ih]
        · simp only [groupsSideB, hk, if_false, List.singleton_append, ih]

/-- Change values contributed to the A side (common and removed changes). -/
def sideAVals : List Change → List String
  | [] => []
  | ch :: rest =>
    if ch.kind = .added then sideAVals rest else ch.value :: sideAVals rest

/-- Change values contributed to the B side (common and added changes). -/
def sideBVals : List Change → List String
  | [] => []
  | ch :: rest =>
    if ch.kind = .removed then sideBVals rest else ch.value :: sideBVals rest

theorem splitChanges_textsA (chs : List Change) :
    (splitChanges chs).segmentsA.map (fun s => s.text) = sideAVals chs := by
  induction chs with
  | nil => rfl
  | cons ch rest ih =>
    cases hk : ch.kind <;> simp [splitChanges, hk, sideAVals, ih]

theorem splitChanges_textsB (chs : List Change) :
    (splitChanges chs).segmentsB.map (fun s => s.text) = sideBVals chs := by
  induction chs with
  | nil => rfl
  | cons ch rest ih =>
    cases hk : ch.kind <;> simp [splitChanges, hk, sideBVals, ih]

theorem joinStr_sideAVals_groups (gs : List (ChangeKind × List String)) :
    joinStr (sideAVals (gs.map (fun g => Change.mk g.1 (joinStr g.2)))) =
      joinStr (groupsSideA gs) := by
  induction gs with
  | nil => rfl
  | cons g gs ih =>
    obtain ⟨k, ts⟩ := g
    by_cases hk : k = .added
    · simp [sideAVals, groupsSideA, hk, ih]
    · simp [sideAVals, groupsSideA, hk, joinStr, ih, joinStr_append]

theorem joinStr_sideBVals_groups (gs : List (ChangeKind × List String)) :
    joinStr (sideBVals (gs.map (fun g => Change.mk g.1 (joinStr g.2)))) =
      joinStr (groupsSideB gs) := by
  induction gs with
  | nil => rfl
  | cons g gs ih =>
    obtain ⟨k, ts⟩ := g
    by_cases hk : k = .removed
    · simp [sideBVals, groupsSideB, hk, ih]
    · simp [sideBVals, groupsSideB, hk, joinStr, ih, joinStr_append]

/-- Claim C1: for every pair of strings the two segment sequences returned by
computeWordDiff concatenate losslessly back to the originals: joining the
text fields of segmentsA yields textA and joining those of segmentsB yields
textB, preserving all whitespace and newline content. -/
theorem computeWordDiff_round_trip (textA textB : String) :
    joinStr ((computeWordDiff textA textB).segmentsA.map (fun s => s.text)) =
      textA ∧
    joinStr ((computeWordDiff textA textB).segmentsB.map (fun s => s.text)) =
      textB := by
  unfold computeWordDiff diffWords
  constructor
  · rw [splitChanges_textsA, joinStr_sideAVals_groups, groupsSideA_coalesce,
      sideAToks_editScript, tokenize_join]
  · rw [splitChanges_textsB, joinStr_sideBVals_groups, groupsSideB_coalesce,
      sideBToks_editScript, tokenize_join]

theorem splitChanges_pairing (chs : List Change) :
    (∀ s ∈ (splitChanges chs).segmentsA, s.type ≠ ChangeKind.added) ∧
    (∀ s ∈ (splitChanges chs).segmentsB, s.type ≠ ChangeKind.removed) ∧
    (splitChanges chs).segmentsA.filter (fun s => s.type == ChangeKind.common) =
      (splitChanges chs).segmentsB.filter
        (fun s => s.type == ChangeKind.common) := by
  induction chs with
  | nil => exact ⟨by simp [splitChanges], by simp [splitChanges], rfl⟩
  | cons ch rest ih =>
    obtain ⟨ihA, ihB, ihC⟩ := ih
    cases hk : ch.kind with
    | common =>
      refine ⟨?_, ?_, ?_⟩
      · intro s hs
        simp [splitChanges, hk] at hs
        rcases hs with hs | hs
        · simp [hs]
        · exact ihA s hs
      · intro s hs
        simp [splitChanges, hk] at hs
        rcases hs with hs | hs
        · simp [hs]
        · exact ihB s hs
      · simp [splitChanges, hk, List.filter, ihC]
    | added =>
      refine ⟨?_, ?_, ?_⟩
      · intro s hs
        simp [splitChanges, hk] at hs
        exact ihA s hs
      · intro s hs
        simp [splitChanges, hk] at hs
        rcases hs with hs | hs
        · simp [hs]
        · exact ihB s hs
      · simp [splitChanges, hk, List.filter, ihC]
    | removed =>
      refine ⟨?_, ?_, ?_⟩
      · intro s hs
        simp [splitChanges, hk] at hs
        rcases hs with hs | hs
        · simp [hs]
        · exact ihA s hs
      · intro s hs
        simp [splitChanges, hk] at hs
        exact ihB s hs
      · simp [splitChanges, hk, List.filter, ihC]

/-- Claim C7: the pairing postcondition of computeWordDiff.  Removed segments
occur only in segmentsA, added segments only in segmentsB, common segments
appear in both sequences with identical text, and the segments of each side
concatenate to the original text (original order). -/
theorem computeWordDiff_pairing (textA textB : String) :
    (∀ s ∈ (computeWordDiff textA textB).segmentsA,
        s.type ≠ ChangeKind.added) ∧
    (∀ s ∈ (computeWordDiff textA textB).segmentsB,
        s.type ≠ ChangeKind.removed) ∧
    (computeWordDiff textA textB).segmentsA.filter
        (fun s => s.type == ChangeKind.common) =
      (computeWordDiff textA textB).segmentsB.filter
        (fun s => s.type == ChangeKind.common) ∧
    joinStr ((computeWordDiff textA textB).segmentsA.map (fun s => s.text)) =
      textA ∧
    joinStr ((computeWordDiff textA textB).segmentsB.map (fun s => s.text)) =
      textB := by
  obtain ⟨hA, hB, hC⟩ := splitChanges_pairing (diffWords textA textB)
  obtain ⟨hRA, hRB⟩ := computeWordDiff_round_trip textA textB
  exact ⟨hA, hB, hC, hRA, hRB⟩

theorem editScriptF_self (f : Nat) :
    ∀ xs : List String, xs.length ≤ f →
      editScriptF f xs xs = xs.map Step.keep := by
  induction f with
  | zero =>
    intro xs h
    have hx : xs = [] := by
      cases xs with
      | nil => rfl
      | cons a as => simp at h
    subst hx
    rfl
  | succ f ih =>
    intro xs h
    cases xs with
    | nil => rfl
    | cons x xs =>
      have hle : xs.length ≤ f := by
        simp [List.length] at h
        omega
      simp [editScriptF, ih xs hle]

theorem coalesce_keeps (x : String) (xs : List String) :
    coalesceGroups ((x :: xs).map Step.keep) = [(ChangeKind.common, x :: xs)] := by
  induction xs generalizing x with
  | nil => rfl
  | cons y ys ih =>
    have hstep : coalesceGroups ((x :: y :: ys).map Step.keep) =
        match coalesceGroups ((y :: ys).map Step.keep) with
        | [] => [(ChangeKind.common, [x])]
        | (k, ts) :: gs =>
          if ChangeKind.common = k then (k, x :: ts) :: gs
          else (ChangeKind.common, [x]) :: (k, ts) :: gs := rfl
    rw [hstep, ih y]
    simp

theorem charRuns_ne_nil (c : Char) (cs : List Char) : charRuns (c :: cs) ≠ [] := by
  simp only [charRuns]
  cases h : charRuns cs with
  | nil => simp
  | cons r rs =>
    cases r with
    | nil => simp
    | cons d t => by_cases hws : isWs c = isWs d <;> simp [hws]

theorem tokenize_ne_nil (x : String) (hx : x ≠ "") : tokenize x ≠ [] := by
  obtain ⟨d⟩ := x
  cases d with
  | nil => exact absurd rfl hx
  | cons c cs =>
    unfold tokenize
    intro hcon
    exact charRuns_ne_nil c cs (List.map_eq_nil_iff.mp hcon)

/-- Claim C8: on identical non-empty input, computeWordDiff returns exactly
one segment per side, of type common, with text equal to the input. -/
theorem computeWordDiff_self (x : String) (hx : x ≠ "") :
    computeWordDiff x x =
      ⟨[⟨x, ChangeKind.common⟩], [⟨x, ChangeKind.common⟩]⟩ := by
  unfold computeWordDiff diffWords editScript
  rw [editScriptF_self _ (tokenize x) (by omega)]
  obtain ⟨t, ts, ht⟩ : ∃ t ts, tokenize x = t :: ts := by
    cases htk : tokenize x with
    | nil => exact absurd htk (tokenize_ne_nil x hx)
    | cons t ts => exact ⟨t, ts, rfl⟩
  rw [ht, coalesce_keeps]
  have hj : joinStr (t :: ts) = x := by
    rw [← ht, tokenize_join]
  simp [splitChanges, hj]

/-- Witness for computeWordDiff_self at a concrete non-empty input. -/
theorem computeWordDiff_self_witness :
    ("ab" : String) ≠ "" ∧
      computeWordDiff "ab" "ab" =
        ⟨[⟨"ab", ChangeKind.common⟩], [⟨"ab", ChangeKind.common⟩]⟩ :=
  ⟨by decide, computeWordDiff_self "ab" (by decide)⟩

/-! ### Per-panel annotation store (src/hooks/useAnnotations.ts)

The TypeScript names startAnnotation / startEditAnnotation /
submitAnnotation / deleteAnnotation / setAllAnnotations are shortened to
startAnnot / startEditAnnot / submitAnnot / deleteAnnot / setAllAnnots;
fields keep their source names.  The nondeterministic environment inputs
crypto.randomUUID() and new Date().toISOString() are passed in as the
explicit arguments newId and now. -/

/-- The closed set of annotation types (src/types/annotations.ts). -/
inductive AnnType where
  | observation
  | question
  | metaphor
  | pattern
  | context
  | critique
deriving DecidableEq, Repr

/-- A line-anchored annotation record (src/types/annotations.ts
LineAnnotation, restricted to the fields the store ever writes). -/
structure LineAnnot where
  id : String
  outputId : String
  lineNumber : Int
  endLineNumber : Option Int
  lineContent : String
  type : AnnType
  content : String
  createdAt : String
deriving DecidableEq, Repr

/-- src/components/annotations/cm-annotations-config.ts InlineEditState. -/
structure InlineEditState where
  lineNumber : Option Int
  startLineNumber : Option Int
  annotationId : Option String
  initialType : AnnType
  initialContent : String
deriving DecidableEq, Repr

/-- The cleared edit state the hook resets to. -/
def emptyEditState : InlineEditState := ⟨none, none, none, .observation, ""⟩

/-- JS truthiness of an optional number (undefined and 0 are falsy). -/
def truthyNum : Option Int → Bool
  | none => false
  | some v => v != 0

/-- JS truthiness of a nullable string (null and the empty string are
falsy). -/
def truthyStr : Option String → Bool
  | none => false
  | some s => s != ""

/-- The state held by one useAnnotations hook instance. -/
structure AnnotStore where
  annotations : List LineAnnot
  editState : InlineEditState
deriving DecidableEq, Repr

/-- useAnnotations startAnnotation. -/
def startAnnot (startLine : Int) (endLine : Option Int)
    (st : AnnotStore) : AnnotStore :=
  { st with
    editState :=
      { lineNumber := some (endLine.getD startLine)
        startLineNumber := if truthyNum endLine then some startLine else none
        annotationId := none
        initialType := .observation
        initialContent := "" } }

/-- useAnnotations startEditAnnotation. -/
def startEditAnnot (id : String) (st : AnnotStore) : AnnotStore :=
  match st.annotations.find? (fun a => a.id == id) with
  | none => st
  | some ann =>
    { st with
      editState :=
        { lineNumber := some (ann.endLineNumber.getD ann.lineNumber)
          startLineNumber :=
            if truthyNum ann.endLineNumber then some ann.lineNumber else none
          annotationId := some id
          initialType := ann.type
          initialContent := ann.content } }

/-- useAnnotations submitAnnotation.  In the create branch
editState.lineNumber is truthy hence some, so the getD default is never
read. -/
def submitAnnot (ty : AnnType) (ct : String) (newId now outputId : String)
    (st : AnnotStore) : AnnotStore :=
  let anns :=
    if truthyStr st.editState.annotationId then
      st.annotations.map (fun a =>
        if a.id == st.editState.annotationId.getD "" then
          { a with type := ty, content := ct }
        else a)
    else if truthyNum st.editState.lineNumber then
      st.annotations ++
        [{ id := newId
           outputId := outputId
           lineNumber :=
             (st.editState.startLineNumber.or st.editState.lineNumber).getD 0
           endLineNumber :=
             if truthyNum st.editState.startLineNumber then
               st.editState.lineNumber
             else none
           lineContent := ""
           type := ty
           content := ct
           createdAt := now }]
    else st.annotations
  { annotations := anns, editState := emptyEditState }

/-- useAnnotations cancelEdit. -/
def cancelEdit (st : AnnotStore) : AnnotStore :=
  { st with editState := emptyEditState }

/-- useAnnotations deleteAnnotation. -/
def deleteAnnot (id : String) (st : AnnotStore) : AnnotStore :=
  { st with annotations := st.annotations.filter (fun a => !(a.id == id)) }

/-- useAnnotations setAllAnnotations. -/
def setAllAnnots (anns : List LineAnnot) (st : AnnotStore) : AnnotStore :=
  { st with annotations := anns }

/-! ### Claims about the annotation store -/

theorem map_update_noop (l : List LineAnnot) (eid : String) (ty : AnnType)
    (ct : String) (h : ∀ a ∈ l, a.id ≠ eid) :
    l.map (fun a =>
      if a.id == eid then { a with type := ty, content := ct } else a) = l := by
  induction l with
  | nil => rfl
  | cons a rest ih =>
    have ha : (a.id == eid) = false :=
      beq_eq_false_iff_ne.mpr (h a (List.mem_cons_self a rest))
    have hrest := ih (fun b hb => h b (List.mem_cons_of_mem a hb))
    rw [List.map_cons, ha, hrest]
    simp

/-- An annotation whose id is the empty string; such a record can enter the
store through setAllAnnotations when a saved comparison is loaded. -/
def emptyIdAnn : LineAnnot := ⟨"", "out", 3, none, "", .pattern, "orig", "t0"⟩

def emptyIdStore : AnnotStore := ⟨[emptyIdAnn], emptyEditState⟩

def emptyIdAfter : AnnotStore :=
  submitAnnot .critique "revised" "new-id" "t1" "out"
    (startEditAnnot "" emptyIdStore)

/-- Claim C5 counterexample: submitting an edit of the existing annotation id
"" does not replace that annotation, because the empty string is falsy in
the if (editState.annotationId) test, so submitAnnotation takes the create
branch and appends a second record; the original annotation keeps its old
type and content. -/
theorem submitAnnot_empty_id_cex :
    emptyIdAfter.annotations =
      [emptyIdAnn, ⟨"new-id", "out", 3, none, "", .critique, "revised", "t1"⟩] ∧
    emptyIdAfter.annotations ≠
      [{ emptyIdAnn with type := .critique, content := "revised" }] := by
  exact ⟨rfl, by decide⟩

/-- Claim C5 (amended: the edited annotation id must be a non-empty string):
submitting an edit replaces only that annotation type and content in place,
preserving id, lineNumber, endLineNumber, lineContent and createdAt at every
position, leaving every other annotation unchanged; if no annotation carries
the id the collection is unchanged; and startEditAnnotation populates the
edit state initialType / initialContent from the found annotation. -/
theorem submitAnnot_update_frame (st : AnnotStore) (ty : AnnType)
    (ct newId now outputId eid : String)
    (heid : st.editState.annotationId = some eid) (hne : eid ≠ "") :
    (submitAnnot ty ct newId now outputId st).annotations =
      st.annotations.map (fun a =>
        if a.id == eid then { a with type := ty, content := ct } else a) ∧
    ((submitAnnot ty ct newId now outputId st).annotations.map (fun a =>
        (a.id, a.lineNumber, a.endLineNumber, a.lineContent, a.createdAt)) =
      st.annotations.map (fun a =>
        (a.id, a.lineNumber, a.endLineNumber, a.lineContent, a.createdAt))) ∧
    ((∀ a ∈ st.annotations, a.id ≠ eid) →
      (submitAnnot ty ct newId now outputId st).annotations =
        st.annotations) ∧
    (∀ (st2 : AnnotStore) (id : String) (ann : LineAnnot),
      st2.annotations.find? (fun a => a.id == id) = some ann →
      (startEditAnnot id st2).editState.initialType = ann.type ∧
      (startEditAnnot id st2).editState.initialContent = ann.content ∧
      (startEditAnnot id st2).editState.annotationId = some id) := by
  have hts : truthyStr (some eid) = true := by
    simpa [truthyStr] using hne
  have hmain : (submitAnnot ty ct newId now outputId st).annotations =
      st.annotations.map (fun a =>
        if a.id == eid then { a with type := ty, content := ct } else a) := by
    simp [submitAnnot, heid, hts]
  refine ⟨hmain, ?_, ?_, ?_⟩
  · rw [hmain, List.map_map]
    apply List.map_congr_left
    intro a _
    by_cases hid : a.id = eid <;> simp [hid]
  · intro hnone
    rw [hmain, map_update_noop st.annotations eid ty ct hnone]
  · intro st2 id ann hfind
    simp [startEditAnnot, hfind]

/-- Witness for submitAnnot_update_frame at a concrete store. -/
theorem submitAnnot_update_frame_witness :
    ((⟨[⟨"x1", "out", 1, none, "", .observation, "c", "t"⟩],
        ⟨some 1, none, some "x1", .observation, "c"⟩⟩ :
          AnnotStore).editState.annotationId = some "x1") ∧
    ("x1" : String) ≠ "" ∧
    ((submitAnnot .critique "r" "n1" "t2" "out"
        (⟨[⟨"x1", "out", 1, none, "", .observation, "c", "t"⟩],
          ⟨some 1, none, some "x1", .observation, "c"⟩⟩ :
            AnnotStore)).annotations =
      [⟨"x1", "out", 1, none, "", .observation, "c", "t"⟩].map (fun a =>
        if a.id == "x1" then { a with type := .critique, content := "r" }
        else a)) :=
  ⟨rfl, by decide,
    (submitAnnot_update_frame
      ⟨[⟨"x1", "out", 1, none, "", .observation, "c", "t"⟩],
        ⟨some 1, none, some "x1", .observation, "c"⟩⟩
      .critique "r" "n1" "t2" "out" "x1" rfl (by decide)).1⟩

/-- The store after creating an annotation from startLine 5 to endLine 3
(no validation happens in the hook). -/
def reversedRangeAfter : AnnotStore :=
  submitAnnot .observation "x" "id1" "t1" "out"
    (startAnnot 5 (some 3) (⟨[], emptyEditState⟩ : AnnotStore))

/-- Claim C6 counterexample: startAnnotation(5, 3) followed by
submitAnnotation stores an annotation with lineNumber 5 and endLineNumber 3,
violating endLineNumber >= lineNumber; the store performs no validation or
swap of the range ends. -/
theorem startAnnot_reversed_range_cex :
    reversedRangeAfter.annotations =
      [⟨"id1", "out", 5, some 3, "", .observation, "x", "t1"⟩] ∧
    ¬ (∀ a ∈ reversedRangeAfter.annotations,
        1 ≤ a.lineNumber ∧ ∀ e ∈ a.endLineNumber, a.lineNumber ≤ e) := by
  refine ⟨rfl, ?_⟩
  intro h
  have := h ⟨"id1", "out", 5, some 3, "", .observation, "x", "t1"⟩ (by
    rw [(rfl : reversedRangeAfter.annotations =
      [⟨"id1", "out", 5, some 3, "", .observation, "x", "t1"⟩])]
    exact List.mem_singleton.mpr rfl)
  have h3 := this.2 3 rfl
  exact absurd h3 (by decide)

/-- Claim C6 (amended: provided the caller passes 1 <= startLine and, when an
end line is given, startLine <= endLine): every annotation created through
startAnnotation followed by submitAnnotation is appended with
lineNumber = startLine >= 1 and endLineNumber = endLine, satisfying
endLineNumber = undefined or endLineNumber >= lineNumber. -/
theorem startAnnot_submit_anchor (st : AnnotStore) (s : Int) (e : Option Int)
    (ty : AnnType) (ct newId now outputId : String)
    (hs : 1 ≤ s) (he : ∀ v ∈ e, s ≤ v) :
    (submitAnnot ty ct newId now outputId (startAnnot s e st)).annotations =
      st.annotations ++ [⟨newId, outputId, s, e, "", ty, ct, now⟩] ∧
    (1 ≤ (⟨newId, outputId, s, e, "", ty, ct, now⟩ : LineAnnot).lineNumber ∧
      ∀ v ∈ (⟨newId, outputId, s, e, "", ty, ct, now⟩ :
          LineAnnot).endLineNumber,
        (⟨newId, outputId, s, e, "", ty, ct, now⟩ :
          LineAnnot).lineNumber ≤ v) := by
  refine ⟨?_, hs, fun v hv => he v hv⟩
  cases e with
  | none =>
    have hs0 : ¬ s = 0 := by omega
    simp [startAnnot, submitAnnot, truthyNum, truthyStr, emptyEditState, hs0,
      Option.or]
  | some v =>
    have hv : s ≤ v := he v rfl
    have hv0 : ¬ v = 0 := by omega
    have hs0 : ¬ s = 0 := by omega
    simp [startAnnot, submitAnnot, truthyNum, truthyStr, emptyEditState, hs0,
      hv0, Option.or]

/-- Witness for startAnnot_submit_anchor at concrete inputs. -/
theorem startAnnot_submit_anchor_witness :
    (1 ≤ (3 : Int)) ∧ (∀ v ∈ (some (5 : Int)), (3 : Int) ≤ v) ∧
    ((submitAnnot .pattern "c" "id2" "t3" "out"
        (startAnnot 3 (some 5) (⟨[], emptyEditState⟩ : AnnotStore))).annotations =
      [] ++ [⟨"id2", "out", 3, some 5, "", .pattern, "c", "t3"⟩]) :=
  ⟨by decide, by decide,
    (startAnnot_submit_anchor ⟨[], emptyEditState⟩ 3 (some 5) .pattern "c"
      "id2" "t3" "out" (by decide) (by decide)).1⟩

/-- Claim C10: the per-panel collection stays in creation order: a created
annotation is appended at the end, an update rewrites the matching element
in place via map, and deletion filters, which yields a sublist and so
preserves the relative order of the remaining annotations. -/
theorem annotStore_creation_order :
    (∀ (st : AnnotStore) (ty : AnnType) (ct newId now outputId : String)
        (n : Int),
      st.editState.annotationId = none →
      st.editState.lineNumber = some n → n ≠ 0 →
      ∃ a : LineAnnot,
        (submitAnnot ty ct newId now outputId st).annotations =
          st.annotations ++ [a] ∧ a.id = newId ∧ a.createdAt = now) ∧
    (∀ (st : AnnotStore) (ty : AnnType) (ct newId now outputId eid : String),
      st.editState.annotationId = some eid → eid ≠ "" →
      (submitAnnot ty ct newId now outputId st).annotations =
        st.annotations.map (fun a =>
          if a.id == eid then { a with type := ty, content := ct } else a)) ∧
    (∀ (st : AnnotStore) (id : String),
      (deleteAnnot id st).annotations =
        st.annotations.filter (fun a => !(a.id == id)) ∧
      (deleteAnnot id st).annotations.Sublist st.annotations) := by
  refine ⟨?_, ?_, ?_⟩
  · intro st ty ct newId now outputId n hid hln hn
    refine
      ⟨⟨newId, outputId,
          (st.editState.startLineNumber.or st.editState.lineNumber).getD 0,
          if truthyNum st.editState.startLineNumber then
            st.editState.lineNumber
          else none,
          "", ty, ct, now⟩, ?_, rfl, rfl⟩
    simp [submitAnnot, truthyStr, truthyNum, hid, hln, hn]
  · intro st ty ct newId now outputId eid heid hne
    have hts : truthyStr (some eid) = true := by
      simpa [truthyStr] using hne
    simp [submitAnnot, heid, hts]
  · intro st id
    exact ⟨rfl, List.filter_sublist _⟩

/-- Witness for annotStore_creation_order at concrete stores. -/
theorem annotStore_creation_order_witness :
    (∃ a : LineAnnot,
      (submitAnnot .question "q" "idw" "tw" "out"
          (⟨[], ⟨some 2, none, none, .observation, ""⟩⟩ :
            AnnotStore)).annotations = [] ++ [a] ∧
        a.id = "idw" ∧ a.createdAt = "tw") ∧
    ((deleteAnnot "z"
        (⟨[⟨"z", "out", 1, none, "", .context, "c", "t"⟩],
          emptyEditState⟩ : AnnotStore)).annotations.Sublist
      [⟨"z", "out", 1, none, "", .context, "c", "t"⟩]) :=
  ⟨annotStore_creation_order.1
      ⟨[], ⟨some 2, none, none, .observation, ""⟩⟩ .question "q" "idw" "tw"
      "out" 2 rfl rfl (by decide),
    (annotStore_creation_order.2.2
      ⟨[⟨"z", "out", 1, none, "", .context, "c", "t"⟩], emptyEditState⟩
      "z").2⟩

/-! ### Comparison records and the load path (src/app/page.tsx) -/

/-- src/types/ai-settings.ts OutputProvenance.  The JS numbers temperature
and responseTimeMs are modelled as exact rationals. -/
structure Provenance where
  provider : String
  model : String
  modelDisplayName : String
  temperature : ℚ
  systemPrompt : String
  responseTimeMs : ℚ
  generatedAt : String
deriving DecidableEq, Repr

/-- src/types/comparison.ts ComparisonOutput (error is an optional field). -/
structure ComparisonOutput where
  text : String
  provenance : Provenance
  error : Option String
deriving DecidableEq, Repr

/-- src/hooks/usePromptDispatch.ts PanelResult: either a successful output or
a panel error, each with provenance. -/
inductive PanelResult where
  | output (text : String) (provenance : Provenance)
  | failure (error : String) (provenance : Provenance)
deriving DecidableEq, Repr

/-- src/app/page.tsx outputToPanelResult: null/undefined outputs become null;
a truthy error field selects the error shape. -/
def outputToPanelResult (o : Option ComparisonOutput) : Option PanelResult :=
  match o with
  | none => none
  | some output =>
    if truthyStr output.error then
      some (.failure (output.error.getD "") output.provenance)
    else
      some (.output output.text output.provenance)

/-- A saved Comparison as parsed back from persistence.  JSON.parse performs
no validation, so the fields the load path forwards may be absent; absence of
outputA/outputB is identified with null (outputToPanelResult treats both
identically), and a missing annotation array is none. The id, name, prompt
and timestamp fields are irrelevant to claim C2 and kept mandatory. -/
structure RawComparison where
  id : String
  name : String
  prompt : String
  outputA : Option ComparisonOutput
  outputB : Option ComparisonOutput
  annotationsA : Option (List LineAnnot)
  annotationsB : Option (List LineAnnot)
  createdAt : String
deriving DecidableEq, Repr

/-- The panel-relevant state handleLoad (src/app/page.tsx) establishes:
loadState receives the converted outputs, and setAllAnnotations receives the
annotation arrays exactly as stored on the comparison (no defaulting). -/
structure LoadedState where
  comparisonId : String
  comparisonName : String
  prompt : String
  resultA : Option PanelResult
  resultB : Option PanelResult
  annotationsA : Option (List LineAnnot)
  annotationsB : Option (List LineAnnot)
deriving DecidableEq, Repr

/-- src/app/page.tsx handleLoad. -/
def handleLoad (raw : RawComparison) : LoadedState :=
  { comparisonId := raw.id
    comparisonName := raw.name
    prompt := raw.prompt
    resultA := outputToPanelResult raw.outputA
    resultB := outputToPanelResult raw.outputB
    annotationsA := raw.annotationsA
    annotationsB := raw.annotationsB }

/-- Strict JS semantics of annotations.find(...) on the loaded value: calling
a method on undefined throws a TypeError. -/
def jsFindAnn (arr : Option (List LineAnnot)) (id : String) :
    Except String (Option LineAnnot) :=
  match arr with
  | none => .error "TypeError: cannot read find of undefined"
  | some l => .ok (l.find? (fun a => a.id == id))

/-- A saved comparison missing both annotation arrays and both outputs. -/
def bareRaw : RawComparison :=
  ⟨"c1", "n", "p", none, none, none, none, "t0"⟩

/-- Claim C2 counterexample: loading a comparison with a missing annotationsA
does not default it to the empty array (it stays undefined), and the first
store operation that touches the array (annotations.find inside
startEditAnnotation) throws a TypeError.  Only the output slots are
defaulted to null. -/
theorem handleLoad_missing_annotations_cex :
    (handleLoad bareRaw).annotationsA ≠ some [] ∧
    (handleLoad bareRaw).annotationsB ≠ some [] ∧
    jsFindAnn (handleLoad bareRaw).annotationsA "x" =
      .error "TypeError: cannot read find of undefined" ∧
    (handleLoad bareRaw).resultA = none := by
  refine ⟨?_, ?_, rfl, rfl⟩ <;> decide

/-- Claim C2 (amended): loading never throws in handleLoad itself and a
missing or null outputA/outputB is defaulted to null, but a missing
annotationsA/annotationsB is stored verbatim (not defaulted to the empty
array), and any subsequent array operation on it fails. -/
theorem handleLoad_defaults (raw : RawComparison) :
    (raw.outputA = none → (handleLoad raw).resultA = none) ∧
    (raw.outputB = none → (handleLoad raw).resultB = none) ∧
    (handleLoad raw).annotationsA = raw.annotationsA ∧
    (handleLoad raw).annotationsB = raw.annotationsB ∧
    (raw.annotationsA = none → ∀ id : String, ∃ e : String,
      jsFindAnn (handleLoad raw).annotationsA id = .error e) := by
  refine ⟨?_, ?_, rfl, rfl, ?_⟩
  · intro h
    simp [handleLoad, outputToPanelResult, h]
  · intro h
    simp [handleLoad, outputToPanelResult, h]
  · intro h id
    exact ⟨"TypeError: cannot read find of undefined",
      by simp [handleLoad, jsFindAnn, h]⟩

/-- Witness for handleLoad_defaults at a concrete raw comparison. -/
theorem handleLoad_defaults_witness :
    (bareRaw.outputA = none) ∧
    ((handleLoad bareRaw).resultA = none) ∧
    (handleLoad bareRaw).annotationsA = bareRaw.annotationsA :=
  ⟨rfl, (handleLoad_defaults bareRaw).1 rfl,
    (handleLoad_defaults bareRaw).2.2.1⟩

/-! ### Synchronized diff scrolling (src/app/page.tsx)

The two scroll handlers are embedded over exact rationals.  Event dispatch
is modelled synchronously: assigning the other panel's scrollTop invokes
that panel's handler immediately, with a fuel bound on dispatch depth; the
shared diffSyncing flag makes every fuel at least 1 give the same result. -/

structure PanelGeo where
  scrollHeight : ℚ
  clientHeight : ℚ
deriving DecidableEq, Repr

structure SyncState where
  topA : ℚ
  topB : ℚ
  geoA : PanelGeo
  geoB : PanelGeo
  syncing : Bool
deriving DecidableEq, Repr

/-- JS (x || 1) on a number: 0 is falsy and replaced by 1. -/
def orOne (x : ℚ) : ℚ := if x = 0 then 1 else x

theorem orOne_ne_zero (x : ℚ) : orOne x ≠ 0 := by
  unfold orOne
  split <;> simp_all

def denomA (st : SyncState) : ℚ :=
  orOne (st.geoA.scrollHeight - st.geoA.clientHeight)

def denomB (st : SyncState) : ℚ :=
  orOne (st.geoB.scrollHeight - st.geoB.clientHeight)

/-- Panel A scroll position as a ratio, as computed by handleScrollA. -/
def fracA (st : SyncState) : ℚ := st.topA / denomA st

/-- Panel B scroll position as a ratio, as computed by handleScrollB. -/
def fracB (st : SyncState) : ℚ := st.topB / denomB st

inductive PanelId where
  | A
  | B
deriving DecidableEq, Repr

/-- handleScrollA / handleScrollB with synchronous echo dispatch. -/
def handleScroll : Nat → PanelId → SyncState → SyncState
  | 0, _, st => st
  | f + 1, .A, st =>
    if st.syncing then st
    else
      let st1 := { st with syncing := true }
      let r := fracA st1
      let st2 := handleScroll f .B { st1 with topB := r * denomB st1 }
      { st2 with syncing := false }
  | f + 1, .B, st =>
    if st.syncing then st
    else
      let st1 := { st with syncing := true }
      let r := fracB st1
      let st2 := handleScroll f .A { st1 with topA := r * denomA st1 }
      { st2 with syncing := false }

theorem handleScroll_guard (f : Nat) (p : PanelId) (st : SyncState)
    (h : st.syncing = true) : handleScroll f p st = st := by
  cases f with
  | zero => cases p <;> rfl
  | succ f => cases p <;> simp [handleScroll, h]

theorem fracB_after_A (st : SyncState) (f : Nat) (hs : st.syncing = false) :
    fracB (handleScroll (f + 1) .A st) = fracA st := by
  simp only [handleScroll, hs, Bool.false_eq_true, if_false]
  rw [handleScroll_guard _ _ _ rfl]
  simp only [fracB, fracA, denomB, denomA]
  exact mul_div_cancel_right₀ _ (orOne_ne_zero _)

theorem fracA_after_B (st : SyncState) (f : Nat) (hs : st.syncing = false) :
    fracA (handleScroll (f + 1) .B st) = fracB st := by
  simp only [handleScroll, hs, Bool.false_eq_true, if_false]
  rw [handleScroll_guard _ _ _ rfl]
  simp only [fracB, fracA, denomB, denomA]
  exact mul_div_cancel_right₀ _ (orOne_ne_zero _)

theorem handleScroll_fuel_indep (f : Nat) (p : PanelId) (st : SyncState) :
    handleScroll (f + 1) p st = handleScroll 1 p st := by
  cases p with
  | A =>
    by_cases hs : st.syncing = true
    · rw [handleScroll_guard _ _ _ hs, handleScroll_guard _ _ _ hs]
    · simp only [Bool.not_eq_true] at hs
      simp only [handleScroll, hs, Bool.false_eq_true, if_false]
      rw [handleScroll_guard _ _ _ rfl]
  | B =>
    by_cases hs : st.syncing = true
    · rw [handleScroll_guard _ _ _ hs, handleScroll_guard _ _ _ hs]
    · simp only [Bool.not_eq_true] at hs
      simp only [handleScroll, hs, Bool.false_eq_true, if_false]
      rw [handleScroll_guard _ _ _ rfl]

/-- Claim C3: in diff mode, scrolling one panel sets the other to the same
scrollTop/(scrollHeight-clientHeight) ratio (exact, in the rational model):
after a scroll of A the ratio of B equals the ratio of A and symmetrically;
the denominator x || 1 equals max x 1 on the integral nonnegative values the
DOM supplies; the ratio lies in [0,1] under the DOM bounds on scrollTop; and
the diffSyncing guard suppresses the echo (a handler run on a syncing state
is the identity) so dispatch depth beyond one echo never changes the result
(no infinite loop). -/
theorem diff_scroll_sync :
    (∀ (st : SyncState) (f : Nat), st.syncing = false →
      fracB (handleScroll (f + 1) .A st) = fracA st) ∧
    (∀ (st : SyncState) (f : Nat), st.syncing = false →
      fracA (handleScroll (f + 1) .B st) = fracB st) ∧
    (∀ d : ℤ, 0 ≤ d → orOne (d : ℚ) = max (d : ℚ) 1) ∧
    (∀ top sh ch : ℚ, 0 ≤ top → top ≤ max (sh - ch) 0 →
      0 ≤ top / orOne (sh - ch) ∧ top / orOne (sh - ch) ≤ 1) ∧
    (∀ (f : Nat) (p : PanelId) (st : SyncState), st.syncing = true →
      handleScroll f p st = st) ∧
    (∀ (f : Nat) (p : PanelId) (st : SyncState),
      handleScroll (f + 1) p st = handleScroll 1 p st) := by
  refine ⟨fun st f hs => fracB_after_A st f hs,
    fun st f hs => fracA_after_B st f hs, ?_, ?_,
    fun f p st h => handleScroll_guard f p st h,
    fun f p st => handleScroll_fuel_indep f p st⟩
  · intro d hd
    by_cases h0 : d = 0
    · subst h0
      simp [orOne]
    · have h1 : (1 : ℚ) ≤ (d : ℚ) := by
        exact_mod_cast (by omega : (1 : ℤ) ≤ d)
      have hne : (d : ℚ) ≠ 0 := by
        exact_mod_cast h0
      rw [orOne, if_neg hne, max_eq_left h1]
  · intro top sh ch h0 h1
    by_cases hd : sh - ch = 0
    · rw [hd] at h1
      simp at h1
      have : top = 0 := le_antisymm h1 h0
      subst this
      simp [orOne, hd]
    · by_cases hpos : 0 < sh - ch
      · rw [max_eq_left (le_of_lt hpos)] at h1
        rw [orOne, if_neg hd]
        exact ⟨div_nonneg h0 (le_of_lt hpos), (div_le_one hpos).mpr h1⟩
      · have hneg : sh - ch < 0 := lt_of_le_of_ne (not_lt.mp hpos) hd
        rw [max_eq_right (le_of_lt hneg)] at h1
        have : top = 0 := le_antisymm h1 h0
        subst this
        simp

/-- Witness for diff_scroll_sync at a concrete state and concrete numbers. -/
theorem diff_scroll_sync_witness :
    ((⟨30, 0, ⟨200, 100⟩, ⟨300, 100⟩, false⟩ : SyncState).syncing = false ∧
      fracB (handleScroll 1 .A
          (⟨30, 0, ⟨200, 100⟩, ⟨300, 100⟩, false⟩ : SyncState)) =
        fracA (⟨30, 0, ⟨200, 100⟩, ⟨300, 100⟩, false⟩ : SyncState)) ∧
    ((0 : ℤ) ≤ (0 : ℤ) ∧ orOne ((0 : ℤ) : ℚ) = max ((0 : ℤ) : ℚ) 1) ∧
    ((0 : ℚ) ≤ 30 ∧ (30 : ℚ) ≤ max (200 - 100) 0 ∧
      0 ≤ (30 : ℚ) / orOne (200 - 100) ∧ (30 : ℚ) / orOne (200 - 100) ≤ 1) :=
  ⟨⟨rfl, diff_scroll_sync.1 ⟨30, 0, ⟨200, 100⟩, ⟨300, 100⟩, false⟩ 0 rfl⟩,
    ⟨le_refl 0, diff_scroll_sync.2.2.1 0 (le_refl 0)⟩,
    ⟨by norm_num, by norm_num,
      diff_scroll_sync.2.2.2.1 30 200 100 (by norm_num) (by norm_num)⟩⟩

/-! ### Paginated two-column PDF export (src/lib/export/comparison-export.ts)

renderPlainColumn and renderDiffColumn are embedded over exact rational
geometry.  jsPDF externals are abstracted: doc.splitTextToSize supplies the
pre-wrapped lines of the plain column, and doc.getTextWidth is the abstract
width function w.  newPage() increments the page and resets y to the top
margin.  Colour selection does not affect layout and is omitted.  The models
additionally record, for each drawn line/token, the page, position, and (for
the diff column) a ghost wrapped-line index that increments exactly when the
code breaks a line; the index exists only to state the no-split property. -/

structure PdfGeom where
  pageHeight : ℚ
  bottomMargin : ℚ
  margin : ℚ
  lineH : ℚ
  colLeft : ℚ
  colRight : ℚ
deriving DecidableEq, Repr

/-- The y limit used by both renderers: pageHeight - bottomMargin. -/
def pageBottom (g : PdfGeom) : ℚ := g.pageHeight - g.bottomMargin

structure ColState where
  page : Nat
  cy : ℚ
deriving DecidableEq, Repr

/-- renderPlainColumn over the pre-wrapped lines.  Output records the page
and y position each whole line is drawn at. -/
def renderPlainColumn (g : PdfGeom) :
    List String → ColState → ColState × List (String × Nat × ℚ)
  | [], st => (st, [])
  | line :: rest, st =>
    let st1 : ColState :=
      if pageBottom g < st.cy + g.lineH then ⟨st.page + 1, g.margin⟩ else st
    let res := renderPlainColumn g rest ⟨st1.page, st1.cy + g.lineH⟩
    (res.1, (line, st1.page, st1.cy) :: res.2)

structure DiffColState where
  page : Nat
  cx : ℚ
  cy : ℚ
  lineIdx : Nat
deriving DecidableEq, Repr

/-- A token drawn by renderDiffColumn, with its page, position and the ghost
index of the wrapped line it belongs to. -/
structure DrawnTok where
  token : String
  page : Nat
  x : ℚ
  y : ℚ
  lineIdx : Nat
deriving DecidableEq, Repr

/-- The line-break step of renderDiffColumn: cy += lineH, cx back to the
column left, and a new page at the top margin when cy passes the bottom. -/
def advanceLine (g : PdfGeom) (st : DiffColState) : DiffColState :=
  if pageBottom g < st.cy + g.lineH then
    ⟨st.page + 1, g.colLeft, g.margin, st.lineIdx + 1⟩
  else
    ⟨st.page, g.colLeft, st.cy + g.lineH, st.lineIdx + 1⟩

/-- The newline loop of renderDiffColumn (one advance per newline char). -/
def advanceLines (g : PdfGeom) : Nat → DiffColState → DiffColState
  | 0, st => st
  | n + 1, st => advanceLines g n (advanceLine g st)

/-- Number of newline characters of a token ((token.match(/\n/g)).length). -/
def countNl (t : String) : Nat := t.data.countP (fun c => c = '\n')

/-- /\n/.test(token). -/
def hasNl (t : String) : Bool := t.data.any (fun c => c = '\n')

/-- JS String.prototype.trim. -/
def jsTrim (s : String) : String :=
  String.mk
    (((s.data.dropWhile (fun c => isWs c)).reverse.dropWhile
      (fun c => isWs c)).reverse)

/-- The body of the renderDiffColumn token loop for one token. -/
def procTok (g : PdfGeom) (w : String → ℚ) (st : DiffColState)
    (tok : String) : DiffColState × List DrawnTok :=
  if tok = "" then (st, [])
  else if hasNl tok then (advanceLines g (countNl tok) st, [])
  else if g.colRight < st.cx + w tok ∧ jsTrim tok ≠ "" then
    let s2 := advanceLine g st
    (⟨s2.page, s2.cx + w tok, s2.cy, s2.lineIdx⟩,
      [⟨tok, s2.page, s2.cx, s2.cy, s2.lineIdx⟩])
  else
    (⟨st.page, st.cx + w tok, st.cy, st.lineIdx⟩,
      [⟨tok, st.page, st.cx, st.cy, st.lineIdx⟩])

/-- The renderDiffColumn token loop over one segment's tokens. -/
def procToks (g : PdfGeom) (w : String → ℚ) :
    List String → DiffColState → DiffColState × List DrawnTok
  | [], st => (st, [])
  | t :: ts, st =>
    let r1 := procTok g w st t
    let r2 := procToks g w ts r1.1
    (r2.1, r1.2 ++ r2.2)

/-- renderDiffColumn: segments in order; each segment's text is split by
split(/(\s+)/) into word/whitespace tokens (the non-empty tokens of that
split are exactly the maximal runs computed by tokenize; empty boundary
pieces are skipped by the loop). -/
def renderDiffColumn (g : PdfGeom) (w : String → ℚ) :
    List DiffSegment → DiffColState → DiffColState × List DrawnTok
  | [], st => (st, [])
  | seg :: rest, st =>
    let r1 := procToks g w (tokenize seg.text) st
    let r2 := renderDiffColumn g w rest r1.1
    (r2.1, r1.2 ++ r2.2)

theorem renderPlain_page_mono (g : PdfGeom) (lines : List String) :
    ∀ st : ColState, st.page ≤ (renderPlainColumn g lines st).1.page := by
  induction lines with
  | nil => intro st; exact le_refl _
  | cons line rest ih =>
    intro st
    by_cases hc : pageBottom g < st.cy + g.lineH
    · have h2 := ih ⟨st.page + 1, g.margin + g.lineH⟩
      dsimp only at h2
      simp only [renderPlainColumn, if_pos hc]
      omega
    · have h2 := ih ⟨st.page, st.cy + g.lineH⟩
      dsimp only at h2
      simp only [renderPlainColumn, if_neg hc]
      omega

theorem renderPlain_no_break (g : PdfGeom) (lines : List String) :
    ∀ st : ColState, (renderPlainColumn g lines st).1.page = st.page →
      lines = [] ∨ st.cy + lines.length * g.lineH ≤ pageBottom g := by
  induction lines with
  | nil => intro st _; exact Or.inl rfl
  | cons line rest ih =>
    intro st h
    right
    by_cases hc : pageBottom g < st.cy + g.lineH
    · exfalso
      have hmono := renderPlain_page_mono g rest ⟨st.page + 1, g.margin + g.lineH⟩
      dsimp only at hmono
      simp only [renderPlainColumn, if_pos hc] at h
      omega
    · push_neg at hc
      have hc2 : ¬ pageBottom g < st.cy + g.lineH := not_lt.mpr hc
      simp only [renderPlainColumn, if_neg hc2] at h
      rcases ih ⟨st.page, st.cy + g.lineH⟩ h with hrest | hle
      · subst hrest
        simpa using hc
      · simp only [List.length_cons]
        push_cast
        simp only [ColState.cy] at hle
        linarith

theorem renderPlain_overflow (g : PdfGeom) (lines : List String)
    (st : ColState) (hne : lines ≠ [])
    (hover : pageBottom g < st.cy + lines.length * g.lineH) :
    st.page < (renderPlainColumn g lines st).1.page := by
  have hmono := renderPlain_page_mono g lines st
  rcases Nat.lt_or_ge st.page (renderPlainColumn g lines st).1.page with h | h
  · exact h
  · have heq : (renderPlainColumn g lines st).1.page = st.page :=
      le_antisymm h hmono
    rcases renderPlain_no_break g lines st heq with h1 | h2
    · exact absurd h1 hne
    · linarith

/-- All tokens drawn so far are on lines at or before the current ghost line,
and tokens of the current line sit at the current page and y. -/
def drawnUpTo (st : DiffColState) (l : List DrawnTok) : Prop :=
  ∀ t ∈ l, t.lineIdx ≤ st.lineIdx ∧
    (t.lineIdx = st.lineIdx → t.page = st.page ∧ t.y = st.cy)

/-- Tokens of one wrapped line share a page and a vertical position. -/
def tokListCoherent (l : List DrawnTok) : Prop :=
  ∀ t1 ∈ l, ∀ t2 ∈ l,
    t1.lineIdx = t2.lineIdx → t1.page = t2.page ∧ t1.y = t2.y

theorem advanceLine_lineIdx (g : PdfGeom) (st : DiffColState) :
    (advanceLine g st).lineIdx = st.lineIdx + 1 := by
  unfold advanceLine
  split <;> rfl

theorem drawnUpTo_advanceLine (g : PdfGeom) (st : DiffColState)
    (l : List DrawnTok) (h : drawnUpTo st l) :
    drawnUpTo (advanceLine g st) l := by
  intro t ht
  obtain ⟨h1, _⟩ := h t ht
  rw [advanceLine_lineIdx]
  exact ⟨by omega, fun heq => absurd heq (by omega)⟩

theorem drawnUpTo_advanceLines (g : PdfGeom) (n : Nat) :
    ∀ (st : DiffColState) (l : List DrawnTok), drawnUpTo st l →
      drawnUpTo (advanceLines g n st) l := by
  induction n with
  | zero => intro st l h; exact h
  | succ n ih =>
    intro st l h
    exact ih (advanceLine g st) l (drawnUpTo_advanceLine g st l h)

theorem procTok_coherent (g : PdfGeom) (w : String → ℚ) (st : DiffColState)
    (tok : String) (l : List DrawnTok) (h1 : drawnUpTo st l)
    (h2 : tokListCoherent l) :
    drawnUpTo (procTok g w st tok).1 (l ++ (procTok g w st tok).2) ∧
    tokListCoherent (l ++ (procTok g w st tok).2) := by
  unfold procTok
  by_cases he : tok = ""
  · simp only [he, if_pos rfl]
    simpa using ⟨h1, h2⟩
  · simp only [if_neg he]
    by_cases hn : hasNl tok = true
    · simp only [hn, if_pos rfl]
      refine ⟨?_, by simpa using h2⟩
      simpa using drawnUpTo_advanceLines g (countNl tok) st l h1
    · simp only [Bool.not_eq_true] at hn
      simp only [hn, Bool.false_eq_true, if_false]
      by_cases hw : g.colRight < st.cx + w tok ∧ jsTrim tok ≠ ""
      · simp only [if_pos hw]
        have hadv := drawnUpTo_advanceLine g st l h1
        set s2 := advanceLine g st with hs2
        refine ⟨?_, ?_⟩
        · intro t ht
          simp only [List.mem_append, List.mem_singleton] at ht
          rcases ht with ht | ht
          · obtain ⟨ha, hb⟩ := hadv t ht
            exact ⟨ha, fun heq => hb heq⟩
          · subst ht
            exact ⟨le_refl _, fun _ => ⟨rfl, rfl⟩⟩
        · intro t1 ht1 t2 ht2 heq
          simp only [List.mem_append, List.mem_singleton] at ht1 ht2
          rcases ht1 with ht1 | ht1 <;> rcases ht2 with ht2 | ht2
          · exact h2 t1 ht1 t2 ht2 heq
          · subst ht2
            obtain ⟨_, hb⟩ := hadv t1 ht1
            simpa using hb (by simpa using heq)
          · subst ht1
            obtain ⟨_, hb⟩ := hadv t2 ht2
            have := hb (by simpa using heq.symm)
            exact ⟨this.1.symm, this.2.symm⟩
          · subst ht1; subst ht2
            exact ⟨rfl, rfl⟩
      · simp only [if_neg hw]
        refine ⟨?_, ?_⟩
        · intro t ht
          simp only [List.mem_append, List.mem_singleton] at ht
          rcases ht with ht | ht
          · obtain ⟨ha, hb⟩ := h1 t ht
            exact ⟨ha, fun heq => hb heq⟩
          · subst ht
            exact ⟨le_refl _, fun _ => ⟨rfl, rfl⟩⟩
        · intro t1 ht1 t2 ht2 heq
          simp only [List.mem_append, List.mem_singleton] at ht1 ht2
          rcases ht1 with ht1 | ht1 <;> rcases ht2 with ht2 | ht2
          · exact h2 t1 ht1 t2 ht2 heq
          · subst ht2
            obtain ⟨_, hb⟩ := h1 t1 ht1
            simpa using hb (by simpa using heq)
          · subst ht1
            obtain ⟨_, hb⟩ := h1 t2 ht2
            have := hb (by simpa using heq.symm)
            exact ⟨this.1.symm, this.2.symm⟩
          · subst ht1; subst ht2
            exact ⟨rfl, rfl⟩

theorem procToks_coherent (g : PdfGeom) (w : String → ℚ) (ts : List String) :
    ∀ (st : DiffColState) (l : List DrawnTok), drawnUpTo st l →
      tokListCoherent l →
      drawnUpTo (procToks g w ts st).1 (l ++ (procToks g w ts st).2) ∧
      tokListCoherent (l ++ (procToks g w ts st).2) := by
  induction ts with
  | nil => intro st l h1 h2; simpa [procToks] using ⟨h1, h2⟩
  | cons t ts ih =>
    intro st l h1 h2
    obtain ⟨h3, h4⟩ := procTok_coherent g w st t l h1 h2
    obtain ⟨h5, h6⟩ := ih (procTok g w st t).1 (l ++ (procTok g w st t).2) h3 h4
    simp only [procToks]
    constructor
    · intro tk htk
      refine h5 tk ?_
      simp only [List.mem_append] at htk ⊢
      tauto
    · intro t1 ht1 t2 ht2 heq
      refine h6 t1 ?_ t2 ?_ heq <;>
        simp only [List.mem_append] at ht1 ht2 ⊢ <;> tauto

theorem renderDiff_coherent (g : PdfGeom) (w : String → ℚ)
    (segs : List DiffSegment) :
    ∀ (st : DiffColState) (l : List DrawnTok), drawnUpTo st l →
      tokListCoherent l →
      drawnUpTo (renderDiffColumn g w segs st).1
        (l ++ (renderDiffColumn g w segs st).2) ∧
      tokListCoherent (l ++ (renderDiffColumn g w segs st).2) := by
  induction segs with
  | nil => intro st l h1 h2; simpa [renderDiffColumn] using ⟨h1, h2⟩
  | cons seg rest ih =>
    intro st l h1 h2
    obtain ⟨h3, h4⟩ := procToks_coherent g w (tokenize seg.text) st l h1 h2
    obtain ⟨h5, h6⟩ :=
      ih (procToks g w (tokenize seg.text) st).1
        (l ++ (procToks g w (tokenize seg.text) st).2) h3 h4
    simp only [renderDiffColumn]
    constructor
    · intro tk htk
      refine h5 tk ?_
      simp only [List.mem_append] at htk ⊢
      tauto
    · intro t1 ht1 t2 ht2 heq
      refine h6 t1 ?_ t2 ?_ heq <;>
        simp only [List.mem_append] at ht1 ht2 ⊢ <;> tauto

/-- Claim C4: in the paginated two-column export, pre-wrapped content whose
height exceeds the space left on the page forces at least one page break
(two or more pages), and a page break never splits one wrapped line: any two
tokens the diff renderer draws on the same wrapped line land on the same
page at the same vertical position (so pages only start at line
boundaries). -/
theorem pdf_pagination :
    (∀ (g : PdfGeom) (lines : List String) (st : ColState),
      lines ≠ [] → pageBottom g < st.cy + lines.length * g.lineH →
      st.page < (renderPlainColumn g lines st).1.page) ∧
    (∀ (g : PdfGeom) (w : String → ℚ) (segs : List DiffSegment)
        (st : DiffColState),
      ∀ t1 ∈ (renderDiffColumn g w segs st).2,
        ∀ t2 ∈ (renderDiffColumn g w segs st).2,
          t1.lineIdx = t2.lineIdx → t1.page = t2.page ∧ t1.y = t2.y) := by
  constructor
  · exact fun g lines st hne hover => renderPlain_overflow g lines st hne hover
  · intro g w segs st t1 ht1 t2 ht2 heq
    have h := (renderDiff_coherent g w segs st []
      (by intro t ht; simp at ht) (by intro t ht; simp at ht)).2
    simp only [List.nil_append] at h
    exact h t1 ht1 t2 ht2 heq

/-- Witness for pdf_pagination: three lines of height 5 starting at y = 2 on
a page with bottom 12 overflow onto a second page; and two concrete tokens
drawn on the same wrapped line of a diff column share page and y. -/
theorem pdf_pagination_witness :
    ((["l1", "l2", "l3"] : List String) ≠ [] ∧
      pageBottom ⟨20, 8, 2, 5, 0, 50⟩ <
        (⟨1, 2⟩ : ColState).cy + (3 : Nat) * (5 : ℚ) ∧
      (⟨1, 2⟩ : ColState).page <
        (renderPlainColumn ⟨20, 8, 2, 5, 0, 50⟩ ["l1", "l2", "l3"]
          ⟨1, 2⟩).1.page) ∧
    (∀ t1 ∈ (renderDiffColumn ⟨20, 8, 2, 5, 0, 50⟩
          (fun s => (s.length : ℚ)) [⟨"ab cd", ChangeKind.common⟩]
          ⟨1, 0, 2, 0⟩).2,
      ∀ t2 ∈ (renderDiffColumn ⟨20, 8, 2, 5, 0, 50⟩
          (fun s => (s.length : ℚ)) [⟨"ab cd", ChangeKind.common⟩]
          ⟨1, 0, 2, 0⟩).2,
        t1.lineIdx = t2.lineIdx → t1.page = t2.page ∧ t1.y = t2.y) := by
  constructor
  · refine ⟨by decide, by norm_num [pageBottom], ?_⟩
    exact pdf_pagination.1 ⟨20, 8, 2, 5, 0, 50⟩ ["l1", "l2", "l3"] ⟨1, 2⟩
      (by decide) (by norm_num [pageBottom])
  · exact pdf_pagination.2 ⟨20, 8, 2, 5, 0, 50⟩ (fun s => (s.length : ℚ))
      [⟨"ab cd", ChangeKind.common⟩] ⟨1, 0, 2, 0⟩

/-! ### Word counting (src/lib/export/comparison-export.ts wordCount) -/

/-- JS s.split(/\s+/) scanning model: cur is the piece being accumulated (in
reverse) and lastWs tracks whether the scan is inside a separator run (in
which case cur is empty). -/
def splitWsAux : Bool → List Char → List Char → List (List Char)
  | _, cur, [] => [cur.reverse]
  | lastWs, cur, c :: cs =>
    if isWs c then
      if lastWs then splitWsAux true cur cs
      else cur.reverse :: splitWsAux true [] cs
    else splitWsAux false (c :: cur) cs

/-- JS s.split(/\s+/). -/
def splitWs (s : String) : List String :=
  (splitWsAux false [] s.data).map String.mk

/-- comparison-export.ts wordCount: 0 for falsy text, else
text.trim().split(/\s+/).filter(Boolean).length. -/
def wordCount (text : Option String) : Nat :=
  match text with
  | none => 0
  | some s =>
    if s = "" then 0
    else ((splitWs (jsTrim s)).filter (fun p => p ≠ "")).length

def isWordRun : List Char → Bool
  | [] => false
  | c :: _ => !(isWs c)

/-- The number of whitespace-separated words of a string, stated as in the
spec: the count of maximal non-whitespace runs. -/
def specWordCount (s : String) : Nat :=
  ((charRuns s.data).filter isWordRun).length

/-- State-machine word counter (the Bool says whether the scan is currently
inside a word); reference point for both implementations. -/
def wcount : Bool → List Char → Nat
  | _, [] => 0
  | inWord, c :: cs =>
    if isWs c then wcount false cs
    else if inWord then wcount true cs else 1 + wcount true cs

theorem splitWsAux_cons (lastWs : Bool) (cur : List Char) (c : Char)
    (cs : List Char) :
    splitWsAux lastWs cur (c :: cs) =
      if isWs c = true then
        (if lastWs = true then splitWsAux true cur cs
         else cur.reverse :: splitWsAux true [] cs)
      else splitWsAux false (c :: cur) cs := rfl

theorem wcount_false_cons (c : Char) (l : List Char) :
    wcount false (c :: l) =
      if isWs c = true then wcount false l else 1 + wcount true l := rfl

theorem wcount_true_cons (c : Char) (l : List Char) :
    wcount true (c :: l) =
      if isWs c = true then wcount false l else wcount true l := rfl

theorem splitWsAux_count (l : List Char) :
    (∀ lastWs : Bool,
      ((splitWsAux lastWs [] l).filter (fun p => p ≠ [])).length =
        wcount false l) ∧
    (∀ (d : Char) (cur0 : List Char),
      ((splitWsAux false (d :: cur0) l).filter (fun p => p ≠ [])).length =
        1 + wcount true l) := by
  induction l with
  | nil =>
    constructor
    · intro lastWs
      simp [splitWsAux, wcount]
    · intro d cur0
      simp [splitWsAux, wcount]
  | cons c cs ih =>
    obtain ⟨ih1, ih2⟩ := ih
    constructor
    · intro lastWs
      by_cases hc : isWs c = true
      · cases lastWs with
        | true =>
          rw [splitWsAux_cons, if_pos hc, if_pos rfl, wcount_false_cons,
            if_pos hc]
          exact ih1 true
        | false =>
          rw [splitWsAux_cons, if_pos hc,
            if_neg (by simp : ¬ (false = true)), List.reverse_nil,
            List.filter_cons, wcount_false_cons, if_pos hc]
          have hP : (decide (([] : List Char) ≠ [])) = false := by decide
          rw [hP]
          simpa using ih1 true
      · simp only [Bool.not_eq_true] at hc
        rw [splitWsAux_cons, if_neg (by simp [hc]), wcount_false_cons,
          if_neg (by simp [hc])]
        exact ih2 c []
    · intro d cur0
      by_cases hc : isWs c = true
      · rw [splitWsAux_cons, if_pos hc, if_neg (by simp : ¬ (false = true)),
          List.filter_cons, wcount_true_cons, if_pos hc]
        have hP : (decide ((d :: cur0).reverse ≠ ([] : List Char))) = true := by
          simp
        rw [hP]
        simp only [if_true, List.length_cons]
        rw [ih1 true]
        omega
      · simp only [Bool.not_eq_true] at hc
        rw [splitWsAux_cons, if_neg (by simp [hc]), wcount_true_cons,
          if_neg (by simp [hc])]
        exact ih2 c (d :: cur0)

theorem charRuns_head (c : Char) (cs : List Char) :
    ∃ t rs2, charRuns (c :: cs) = (c :: t) :: rs2 := by
  simp only [charRuns]
  cases h : charRuns cs with
  | nil => exact ⟨[], [], rfl⟩
  | cons r rs =>
    cases r with
    | nil => exact ⟨[], rs, rfl⟩
    | cons d t0 =>
      by_cases hws : isWs c = isWs d
      · exact ⟨d :: t0, rs, by simp [hws]⟩
      · exact ⟨[], (d :: t0) :: rs, by simp [hws]⟩

theorem nwRuns_eq_wcount (l : List Char) :
    ((charRuns l).filter isWordRun).length = wcount false l := by
  induction l with
  | nil => rfl
  | cons c cs ih =>
    cases cs with
    | nil =>
      by_cases hc : isWs c = true
      · simp [charRuns, List.filter, isWordRun, hc, wcount]
      · simp only [Bool.not_eq_true] at hc
        simp [charRuns, List.filter, isWordRun, hc, wcount]
    | cons d cs2 =>
      obtain ⟨t, rs2, ht⟩ := charRuns_head d cs2
      rw [ht] at ih
      have h0 : charRuns (c :: d :: cs2) =
          match charRuns (d :: cs2) with
          | [] => [[c]]
          | r :: rs =>
            match r with
            | [] => [c] :: rs
            | e :: _ =>
              if isWs c = isWs e then (c :: r) :: rs else [c] :: r :: rs :=
        rfl
      have hstep : charRuns (c :: d :: cs2) =
          if isWs c = isWs d then (c :: d :: t) :: rs2
          else [c] :: (d :: t) :: rs2 := by
        rw [h0, ht]
      by_cases hsame : isWs c = isWs d
      · rw [hstep, if_pos hsame]
        by_cases hc : isWs c = true
        · have hd : isWs d = true := by rw [← hsame]; exact hc
          rw [List.filter_cons] at ih ⊢
          have hw1 : isWordRun (c :: d :: t) = false := by
            simp [isWordRun, hc]
          have hw2 : isWordRun (d :: t) = false := by
            simp [isWordRun, hd]
          rw [hw1]
          rw [hw2] at ih
          simp only [Bool.false_eq_true, if_false] at ih ⊢
          have hrhs : wcount false (c :: d :: cs2) = wcount false (d :: cs2) := by
            rw [wcount_false_cons]
            rw [if_pos hc]
          rw [ih, hrhs]
        · simp only [Bool.not_eq_true] at hc
          have hd : isWs d = false := by rw [← hsame]; exact hc
          rw [List.filter_cons] at ih ⊢
          have hw1 : isWordRun (c :: d :: t) = true := by
            simp [isWordRun, hc]
          have hw2 : isWordRun (d :: t) = true := by
            simp [isWordRun, hd]
          rw [hw1]
          rw [hw2] at ih
          simp only [if_true, List.length_cons] at ih ⊢
          rw [wcount_false_cons, if_neg (by simp [hc]), wcount_true_cons,
            if_neg (by simp [hd])]
          rw [wcount_false_cons, if_neg (by simp [hd])] at ih
          omega
      · rw [hstep, if_neg hsame]
        by_cases hc : isWs c = true
        · have hd : isWs d = false := by
            cases hdv : isWs d with
            | false => rfl
            | true => exact absurd (hc.trans hdv.symm) hsame
          rw [List.filter_cons]
          have hw1 : isWordRun [c] = false := by simp [isWordRun, hc]
          rw [hw1]
          simp only [Bool.false_eq_true, if_false]
          have hrhs : wcount false (c :: d :: cs2) = wcount false (d :: cs2) := by
            rw [wcount_false_cons]
            rw [if_pos hc]
          rw [ih, hrhs]
        · simp only [Bool.not_eq_true] at hc
          have hd : isWs d = true := by
            cases hdv : isWs d with
            | true => rfl
            | false => exact absurd (hc.trans hdv.symm) hsame
          have hw1 : isWordRun [c] = true := by simp [isWordRun, hc]
          have hw2 : isWordRun (d :: t) = false := by simp [isWordRun, hd]
          rw [List.filter_cons, hw1]
          simp only [if_true, List.filter_cons, hw2, Bool.false_eq_true,
            if_false, List.length_cons]
          have hih : (List.filter isWordRun rs2).length = wcount false cs2 := by
            rw [List.filter_cons, hw2] at ih
            simp only [Bool.false_eq_true, if_false] at ih
            rw [wcount_false_cons, if_pos hd] at ih
            exact ih
          have hrhs : wcount false (c :: d :: cs2) = 1 + wcount false cs2 := by
            rw [wcount_false_cons]
            rw [if_neg (by simp [hc]), wcount_true_cons, if_pos hd]
          rw [hih, hrhs]
          omega

theorem wcount_dropWhile (l : List Char) :
    wcount false (l.dropWhile (fun c => isWs c)) = wcount false l := by
  induction l with
  | nil => rfl
  | cons c cs ih =>
    by_cases hc : isWs c = true
    · simp [List.dropWhile, hc, wcount, ih]
    · simp only [Bool.not_eq_true] at hc
      simp [List.dropWhile, hc]

theorem wcount_ws_only (m : List Char) (hm : ∀ c ∈ m, isWs c = true) :
    ∀ b : Bool, wcount b m = 0 := by
  induction m with
  | nil => intro b; rfl
  | cons c m2 ih =>
    intro b
    have hc := hm c (List.mem_cons_self c m2)
    simp [wcount, hc, ih (fun x hx => hm x (List.mem_cons_of_mem c hx))]

theorem wcount_append_ws (m : List Char) (hm : ∀ c ∈ m, isWs c = true) :
    ∀ (l : List Char) (b : Bool), wcount b (l ++ m) = wcount b l := by
  intro l
  induction l with
  | nil => intro b; simpa using wcount_ws_only m hm b
  | cons c l2 ih =>
    intro b
    by_cases hc : isWs c = true
    · simp [wcount, hc, ih]
    · simp only [Bool.not_eq_true] at hc
      cases b with
      | true => simp [wcount, hc, ih]
      | false => simp [wcount, hc, ih]

theorem wcount_jsTrim (s : String) :
    wcount false (jsTrim s).data = wcount false s.data := by
  have hdata : (jsTrim s).data =
      ((s.data.dropWhile (fun c => isWs c)).reverse.dropWhile
        (fun c => isWs c)).reverse := rfl
  rw [hdata]
  set l1 := s.data.dropWhile (fun c => isWs c) with hl1
  have hsplit : l1 =
      (l1.reverse.dropWhile (fun c => isWs c)).reverse ++
        (l1.reverse.takeWhile (fun c => isWs c)).reverse := by
    have h := List.takeWhile_append_dropWhile
      (p := fun c => isWs c) (l := l1.reverse)
    calc l1 = l1.reverse.reverse := (List.reverse_reverse l1).symm
      _ = (l1.reverse.takeWhile (fun c => isWs c) ++
            l1.reverse.dropWhile (fun c => isWs c)).reverse := by rw [h]
      _ = _ := by rw [List.reverse_append]
  have hws : ∀ c ∈ (l1.reverse.takeWhile (fun c => isWs c)).reverse,
      isWs c = true := by
    intro c hc
    rw [List.mem_reverse] at hc
    exact List.mem_takeWhile_imp hc
  calc wcount false (l1.reverse.dropWhile (fun c => isWs c)).reverse
      = wcount false ((l1.reverse.dropWhile (fun c => isWs c)).reverse ++
          (l1.reverse.takeWhile (fun c => isWs c)).reverse) :=
        (wcount_append_ws _ hws _ false).symm
    _ = wcount false l1 := by rw [← hsplit]
    _ = wcount false s.data := wcount_dropWhile s.data

theorem filter_map_mk_length (l : List (List Char)) :
    ((l.map String.mk).filter (fun p => p ≠ "")).length =
      (l.filter (fun p => p ≠ [])).length := by
  induction l with
  | nil => rfl
  | cons r rs ih =>
    simp only [List.map_cons, List.filter_cons]
    by_cases hr : r = []
    · subst hr
      have h1 : (decide ((String.mk [] : String) ≠ "")) = false := by decide
      have h2 : (decide (([] : List Char) ≠ [])) = false := by decide
      rw [h1, h2]
      simpa using ih
    · have h1 : (decide ((String.mk r : String) ≠ "")) = true := by
        rw [decide_eq_true_eq]
        intro hcon
        exact hr (congrArg String.data hcon)
      have h2 : (decide (r ≠ [])) = true := by simpa using hr
      rw [h1, h2]
      simp only [if_true, List.length_cons, ih]

/-- The source wordCount equals the spec characterization (number of
whitespace-separated words, i.e. maximal non-whitespace runs). -/
theorem wordCount_eq_spec (s : String) :
    wordCount (some s) = specWordCount s := by
  by_cases hs : s = ""
  · subst hs
    rfl
  · rw [show wordCount (some s) =
        if s = "" then 0
        else ((splitWs (jsTrim s)).filter (fun p => p ≠ "")).length from rfl,
      if_neg hs]
    unfold splitWs
    rw [filter_map_mk_length, (splitWsAux_count (jsTrim s).data).1 false,
      wcount_jsTrim]
    unfold specWordCount
    rw [nwRuns_eq_wcount]

/-! ### Structured JSON export (src/lib/export/comparison-export.ts
exportAsJSON = JSON.stringify(augmented, null, 2))

The serializer mirrors JSON.stringify with two-space indentation on the
fixed record shapes involved: object keys in the construction order of the
source object literals, optional fields omitted when undefined, strings
escaped as stringify does, and numbers (exact rationals in the model)
printed as integers or terminating decimals. -/

/-- The complete saved comparison record (src/types/comparison.ts). -/
structure SavedComparison where
  id : String
  name : String
  prompt : String
  outputA : Option ComparisonOutput
  outputB : Option ComparisonOutput
  annotationsA : List LineAnnot
  annotationsB : List LineAnnot
  createdAt : String
  updatedAt : String
deriving DecidableEq, Repr

/-- An output slot augmented with the derived wordCount key (appended last,
as the object spread in exportAsJSON does). -/
structure AugOutput where
  text : String
  provenance : Provenance
  error : Option String
  wordCount : Nat
deriving DecidableEq, Repr

/-- The augmented comparison exportAsJSON serializes. -/
structure AugComparison where
  id : String
  name : String
  prompt : String
  outputA : Option AugOutput
  outputB : Option AugOutput
  annotationsA : List LineAnnot
  annotationsB : List LineAnnot
  createdAt : String
  updatedAt : String
deriving DecidableEq, Repr

def augmentOut (o : ComparisonOutput) : AugOutput :=
  ⟨o.text, o.provenance, o.error, wordCount (some o.text)⟩

/-- The augmentation step of exportAsJSON: non-null output slots gain a
wordCount, null slots stay null, everything else is copied. -/
def augmentComparison (c : SavedComparison) : AugComparison :=
  ⟨c.id, c.name, c.prompt, c.outputA.map augmentOut, c.outputB.map augmentOut,
    c.annotationsA, c.annotationsB, c.createdAt, c.updatedAt⟩

def hexDigit (n : Nat) : Char :=
  if n < 10 then Char.ofNat (48 + n) else Char.ofNat (87 + n)

/-- JSON.stringify escaping of one character. -/
def escapeChar (c : Char) : String :=
  if c = '"' then "\\\""
  else if c = '\\' then "\\\\"
  else if c = '\n' then "\\n"
  else if c = '\r' then "\\r"
  else if c = '\t' then "\\t"
  else if c = Char.ofNat 8 then "\\b"
  else if c = Char.ofNat 12 then "\\f"
  else if c.toNat < 32 then
    "\\u00" ++ String.mk [hexDigit (c.toNat / 16), hexDigit (c.toNat % 16)]
  else String.mk [c]

/-- A JSON string literal. -/
def jsonStr (s : String) : String :=
  "\"" ++ joinStr (s.data.map escapeChar) ++ "\""

/-- JS number printing for the rationals of the model: integers as
integers, other values as the (for double values always terminating)
decimal expansion. -/
def jsonNum (q : ℚ) : String :=
  if q.den = 1 then toString q.num
  else
    match (List.range 40).find? (fun k => 10 ^ k % q.den = 0) with
    | none => toString q.num ++ "/" ++ toString q.den
    | some k =>
      let scaled := q.num * ((10 ^ k : Int) / (q.den : Int))
      let sign := if q.num < 0 then "-" else ""
      let digits := toString scaled.natAbs
      let digits :=
        if digits.length < k + 1 then
          String.mk (List.replicate (k + 1 - digits.length) (Char.ofNat 48)) ++
            digits
        else digits
      sign ++ digits.dropRight k ++ "." ++ digits.takeRight k

def spaces (n : Nat) : String := String.mk (List.replicate n ' ')

def joinSep (sep : String) : List String → String
  | [] => ""
  | [s] => s
  | s :: rest => s ++ sep ++ joinSep sep rest

/-- One object at enclosing indent ind, fields pre-rendered at ind + 2. -/
def objJson (ind : Nat) (fields : List (String × String)) : String :=
  match fields with
  | [] => "\x7b\x7d"
  | _ =>
    "\x7b\n" ++
      joinSep ",\n" (fields.map (fun f =>
        spaces (ind + 2) ++ jsonStr f.1 ++ ": " ++ f.2)) ++
      "\n" ++ spaces ind ++ "\x7d"

/-- One array at enclosing indent ind, items pre-rendered at ind + 2. -/
def arrJson (ind : Nat) (items : List String) : String :=
  match items with
  | [] => "[]"
  | _ =>
    "[\n" ++ joinSep ",\n" (items.map (fun s => spaces (ind + 2) ++ s)) ++
      "\n" ++ spaces ind ++ "]"

def annTypeStr : AnnType → String
  | .observation => "observation"
  | .question => "question"
  | .metaphor => "metaphor"
  | .pattern => "pattern"
  | .context => "context"
  | .critique => "critique"

/-- A serialized annotation (key order of the object literal built in
submitAnnotation; an undefined endLineNumber is omitted by stringify). -/
def annJson (ind : Nat) (a : LineAnnot) : String :=
  objJson ind
    ([("id", jsonStr a.id), ("outputId", jsonStr a.outputId),
      ("lineNumber", toString a.lineNumber)] ++
      (match a.endLineNumber with
        | none => []
        | some e => [("endLineNumber", toString e)]) ++
      [("lineContent", jsonStr a.lineContent),
        ("type", jsonStr (annTypeStr a.type)),
        ("content", jsonStr a.content),
        ("createdAt", jsonStr a.createdAt)])

/-- A serialized provenance (OutputProvenance field order). -/
def provJson (ind : Nat) (p : Provenance) : String :=
  objJson ind
    [("provider", jsonStr p.provider), ("model", jsonStr p.model),
      ("modelDisplayName", jsonStr p.modelDisplayName),
      ("temperature", jsonNum p.temperature),
      ("systemPrompt", jsonStr p.systemPrompt),
      ("responseTimeMs", jsonNum p.responseTimeMs),
      ("generatedAt", jsonStr p.generatedAt)]

/-- A serialized augmented output slot (spread keys first, wordCount last;
an undefined error is omitted by stringify). -/
def augOutJson (ind : Nat) (o : AugOutput) : String :=
  objJson ind
    ([("text", jsonStr o.text), ("provenance", provJson (ind + 2) o.provenance)] ++
      (match o.error with
        | none => []
        | some e => [("error", jsonStr e)]) ++
      [("wordCount", toString o.wordCount)])

/-- The whole augmented comparison at top level (key order of the
SavedComparison literal built by buildComparison, outputs replaced in
place). -/
def comparisonJson (c : AugComparison) : String :=
  objJson 0
    [("id", jsonStr c.id), ("name", jsonStr c.name),
      ("prompt", jsonStr c.prompt),
      ("outputA",
        match c.outputA with
        | none => "null"
        | some o => augOutJson 2 o),
      ("outputB",
        match c.outputB with
        | none => "null"
        | some o => augOutJson 2 o),
      ("annotationsA", arrJson 2 (c.annotationsA.map (annJson 4))),
      ("annotationsB", arrJson 2 (c.annotationsB.map (annJson 4))),
      ("createdAt", jsonStr c.createdAt),
      ("updatedAt", jsonStr c.updatedAt)]

/-- comparison-export.ts exportAsJSON. -/
def exportAsJSON (c : SavedComparison) : String :=
  comparisonJson (augmentComparison c)

/-- Claim C9: exportAsJSON is deterministic (equal inputs give byte-identical
strings), serializes the full Comparison with each non-null output slot
augmented by a derived wordCount equal to the number of whitespace-separated
words of its text (0 for empty or missing text), and leaves null slots
null. -/
theorem exportAsJSON_stable :
    (∀ c₁ c₂ : SavedComparison, c₁ = c₂ →
      exportAsJSON c₁ = exportAsJSON c₂) ∧
    (∀ c : SavedComparison,
      exportAsJSON c = comparisonJson (augmentComparison c)) ∧
    (∀ c : SavedComparison,
      (augmentComparison c).outputA = c.outputA.map augmentOut ∧
      (augmentComparison c).outputB = c.outputB.map augmentOut ∧
      (augmentComparison c).annotationsA = c.annotationsA ∧
      (augmentComparison c).annotationsB = c.annotationsB) ∧
    (∀ c : SavedComparison, c.outputA = none →
      (augmentComparison c).outputA = none) ∧
    (∀ o : ComparisonOutput,
      (augmentOut o).wordCount = specWordCount o.text ∧
      (augmentOut o).text = o.text ∧
      (augmentOut o).provenance = o.provenance ∧
      (augmentOut o).error = o.error) ∧
    (wordCount none = 0 ∧ wordCount (some "") = 0) := by
  refine ⟨fun c₁ c₂ h => by rw [h], fun c => rfl,
    fun c => ⟨rfl, rfl, rfl, rfl⟩, ?_, ?_, rfl, rfl⟩
  · intro c h
    simp [augmentComparison, h]
  · intro o
    exact ⟨wordCount_eq_spec o.text, rfl, rfl, rfl⟩

/-- Witness for exportAsJSON_stable at a concrete comparison. -/
theorem exportAsJSON_stable_witness :
    (exportAsJSON ⟨"i", "n", "p", none, none, [], [], "c", "u"⟩ =
      exportAsJSON ⟨"i", "n", "p", none, none, [], [], "c", "u"⟩) ∧
    ((⟨"i", "n", "p", none, none, [], [], "c", "u"⟩ :
        SavedComparison).outputA = none ∧
      (augmentComparison
        ⟨"i", "n", "p", none, none, [], [], "c", "u"⟩).outputA = none) ∧
    (augmentOut ⟨"a b", ⟨"pr", "m", "d", 1, "s", 100, "g"⟩, none⟩).wordCount =
      specWordCount "a b" :=
  ⟨exportAsJSON_stable.1 _ _ rfl,
    ⟨rfl, exportAsJSON_stable.2.2.2.1 _ rfl⟩,
    (exportAsJSON_stable.2.2.2.2.1
      ⟨"a b", ⟨"pr", "m", "d", 1, "s", 100, "g"⟩, none⟩).1⟩

end LLMbench
